import Mathlib

/-!
Verification of the capture-stream tool (src/capture-stream.py): mode
discovery, device-label cleanup, the KWin window-rule store with its
stale-rule garbage collection, display-scale detection, the cascading
selection logic and the launch-time window sizing.

Python strings are modelled as Lean strings and scanned through their
character lists; the Python regular-expression searches are translated
into explicit leftmost-match scanning functions; Python floats carrying
configuration scale factors are modelled as exact rationals.
-/

namespace CaptureStream

/-- ASCII part of the Python whitespace class (str.strip, regex class s). -/
def isPySpace (c : Char) : Bool :=
  c == ' ' || c == '\t' || c == '\n' || c == '\r' || c == '\x0B' || c == '\x0C'

/-- The regex character class of capital letters and digits used by the
pixel-format pattern in _parse_formats_ext. -/
def isFmtChar (c : Char) : Bool := c.isUpper || c.isDigit

/-- The ASCII apostrophe, written numerically. -/
def quoteChar : Char := Char.ofNat 39

/-- A one-character string holding the apostrophe. -/
def qs : String := ⟨[quoteChar]⟩

/-- Value of a run of decimal digits (most significant first). -/
def digitsToNat (l : List Char) : Nat := l.foldl (fun a c => a * 10 + (c.toNat - 48)) 0

/-- Does the needle occur contiguously inside the haystack, scanning each
start position. -/
def isInfixL (needle : List Char) : List Char → Bool
  | [] => needle.isPrefixOf []
  | c :: rest => needle.isPrefixOf (c :: rest) || isInfixL needle rest

/-- Substring test, Python's needle in hay. -/
def containsSub (needle hay : String) : Bool := isInfixL needle.data hay.data

/-- Strip ASCII whitespace from both ends (Python str.strip on ASCII input). -/
def trimWsL (l : List Char) : List Char :=
  ((l.dropWhile isPySpace).reverse.dropWhile isPySpace).reverse

/-- Leftmost match of the _parse_formats_ext format pattern: an apostrophe,
one or more capital letters or digits, an apostrophe.  Returns the capture
group, the run between the apostrophes. -/
def findQuoted : List Char → Option (List Char)
  | [] => none
  | c :: rest =>
    if c = quoteChar then
      let run := rest.takeWhile isFmtChar
      match run, rest.drop run.length with
      | _ :: _, c2 :: _ =>
        if c2 = quoteChar then some run else findQuoted rest
      | _, _ => findQuoted rest
    else findQuoted rest

/-- Leftmost match of the resolution pattern: digits, the letter x, digits.
Returns the whole match. -/
def findRes : List Char → Option (List Char)
  | [] => none
  | c :: rest =>
    if c.isDigit then
      let d1 := (c :: rest).takeWhile Char.isDigit
      match (c :: rest).drop d1.length with
      | 'x' :: a2 =>
        let d2 := a2.takeWhile Char.isDigit
        if d2 ≠ [] then some (d1 ++ 'x' :: d2) else findRes rest
      | _ => findRes rest
    else findRes rest

/-- After the numeric group the frame-rate regex requires optional
whitespace followed by the literal letters fps. -/
def wsFps (l : List Char) : Bool := "fps".data.isPrefixOf (l.dropWhile isPySpace)

/-- Leftmost match of the frame-rate pattern: digits with an optional
fractional part, optional whitespace, the literal fps.  Returns the number
group. -/
def findFpsNum : List Char → Option (List Char)
  | [] => none
  | c :: rest =>
    if c.isDigit then
      let d1 := (c :: rest).takeWhile Char.isDigit
      match (c :: rest).drop d1.length with
      | '.' :: a2 =>
        let d2 := a2.takeWhile Char.isDigit
        if d2 ≠ [] ∧ wsFps (a2.drop d2.length) then some (d1 ++ '.' :: d2)
        else findFpsNum rest
      | after1 => if wsFps after1 then some d1 else findFpsNum rest
    else findFpsNum rest

/-- Generic single-character split, Python str.split(sep) semantics: the
empty string splits to one empty part. -/
def splitCharL (sep : Char) : List Char → List (List Char)
  | [] => [[]]
  | c :: rest =>
    if c = sep then [] :: splitCharL sep rest
    else
      match splitCharL sep rest with
      | [] => [[c]]
      | p :: ps => (c :: p) :: ps

/-- Python str.splitlines restricted to the ASCII line breaks LF, CR and
CRLF; no trailing empty line. -/
def splitLinesL : List Char → List (List Char)
  | [] => []
  | '\r' :: '\n' :: rest => [] :: splitLinesL rest
  | '\n' :: rest => [] :: splitLinesL rest
  | '\r' :: rest => [] :: splitLinesL rest
  | c :: rest =>
    match splitLinesL rest with
    | [] => [[c]]
    | p :: ps => (c :: p) :: ps

/-- Split a string at the first occurrence of a separator (str.split(sep, 1)),
returning the two sides, or none when the separator does not occur. -/
def splitOnceAux (sep : List Char) : List Char → Option (List Char × List Char)
  | [] => none
  | c :: rest =>
    if sep.isPrefixOf (c :: rest) then some ([], (c :: rest).drop sep.length)
    else
      match splitOnceAux sep rest with
      | some (l, r) => some (c :: l, r)
      | none => none

/-! ## Device-label cleanup (_clean_device_name) -/

/-- After the opening parenthesis the bus-annotation regex requires usb- or
pci-, then characters other than a closing parenthesis, a closing
parenthesis, and only whitespace up to the end of the string. -/
def closeParenWs (l : List Char) : Bool :=
  match l.dropWhile (fun c => c ≠ ')') with
  | ')' :: tail => tail.all isPySpace
  | _ => false

/-- Does a match of the trailing bus-annotation pattern start at this
position: optional whitespace, an opening parenthesis, usb- or pci-, a run
without closing parentheses, a closing parenthesis, optional whitespace,
end of string. -/
def busMatchAt (l : List Char) : Bool :=
  match l.dropWhile isPySpace with
  | '(' :: rest =>
    match rest with
    | 'u' :: 's' :: 'b' :: '-' :: r2 => closeParenWs r2
    | 'p' :: 'c' :: 'i' :: '-' :: r2 => closeParenWs r2
    | _ => false
  | _ => false

/-- re.sub of the anchored bus-annotation pattern with the empty string:
delete from the leftmost position where the pattern matches to the end. -/
def stripBusL : List Char → List Char
  | [] => []
  | c :: rest => if busMatchAt (c :: rest) then [] else c :: stripBusL rest

/-- The function _clean_device_name: strip a trailing parenthesised usb/pci bus
annotation, then collapse a heading of the form Left: Right to Left when
both halves agree after trimming. -/
def cleanDeviceName (name : String) : String :=
  let clean := String.mk (stripBusL name.data)
  if containsSub ": " clean then
    match splitOnceAux ": ".data clean.data with
    | some (l, r) =>
      if trimWsL l = trimWsL r then String.mk (trimWsL l) else clean
    | none => clean
  else clean

/-! ## Mode discovery (_parse_formats_ext) -/

/-- The resolution allow-list DISCORD_RESOLUTIONS. -/
def DISCORD_RESOLUTIONS : List String :=
  ["3840x2160", "2560x1440", "1920x1080", "1280x720", "854x480", "640x480"]

/-- The frame-rate allow-list DISCORD_FPS. -/
def DISCORD_FPS : List Nat := [15, 30, 60]

/-- The format-announcement line classifier: the quoted-code regex search. -/
def classifyFmt (line : String) : Option String := (findQuoted line.data).map String.mk

/-- The size-line classifier: the line must contain Size: and a WxH token. -/
def sizeRes (line : String) : Option String :=
  if containsSub "Size:" line then (findRes line.data).map String.mk else none

/-- The frame-rate-line classifier: the line must contain fps and match the
numeric pattern; int(float(g)) on the matched nonnegative decimal group is
modelled exactly as the value of its integer part (truncation toward
zero). -/
def fpsTok (line : String) : Option Nat :=
  if containsSub "fps" line then
    (findFpsNum line.data).map (fun g => digitsToNat (g.takeWhile Char.isDigit))
  else none

/-- Association-list lookup on the first matching key (Python dict access
for our insertion-ordered association lists). -/
def lookupA {α : Type} : List (String × α) → String → Option α
  | [], _ => none
  | (k, v) :: rest, key => if k = key then some v else lookupA rest key

/-- Python dict.setdefault: add the key at the end only when absent. -/
def setdefaultA {α : Type} (m : List (String × α)) (key : String) (v : α) :
    List (String × α) :=
  if (lookupA m key).isSome then m else m ++ [(key, v)]

/-- Append one element to the list stored under a key (modes[fmt].append). -/
def appendA {α : Type} : List (String × List α) → String → α → List (String × List α)
  | [], _, _ => []
  | (k, v) :: rest, key, x =>
    if k = key then (k, v ++ [x]) :: rest else (k, v) :: appendA rest key x

/-- Parser state of _parse_formats_ext: the modes table, the per-format
seen sets (kept as lists), and the current format and resolution. -/
structure PState where
  modes : List (String × List (String × Nat))
  seen : List (String × List (String × Nat))
  curFmt : Option String
  curRes : Option String

def initP : PState := ⟨[], [], none, none⟩

/-- One line of the _parse_formats_ext loop. -/
def stepLine (st : PState) (line : String) : PState :=
  match classifyFmt line with
  | some fmt =>
    { modes := setdefaultA st.modes fmt [], seen := setdefaultA st.seen fmt [],
      curFmt := some fmt, curRes := none }
  | none =>
    match st.curFmt with
    | none => st
    | some fmt =>
      match sizeRes line with
      | some res => { st with curRes := some res }
      | none =>
        match st.curRes with
        | none => st
        | some res =>
          match fpsTok line with
          | none => st
          | some fps =>
            if res ∈ DISCORD_RESOLUTIONS ∧ fps ∈ DISCORD_FPS then
              if (res, fps) ∈ (lookupA st.seen fmt).getD [] then st
              else { st with seen := appendA st.seen fmt (res, fps),
                             modes := appendA st.modes fmt (res, fps) }
            else st

/-- The function _parse_formats_ext over an already-split list of output lines. -/
def parseFormatsExt (lines : List String) : List (String × List (String × Nat)) :=
  (lines.foldl stepLine initP).modes

/-- The function _parse_formats_ext applied to raw command output. -/
def parseFormatsOutput (out : String) : List (String × List (String × Nat)) :=
  parseFormatsExt ((splitLinesL out.data).map String.mk)

/-! ## The _run error model -/

/-- Outcome of the external listing command: an exit with a code and
captured output, or a missing executable. -/
inductive CmdOutcome where
  | exited (code : Nat) (out : String)
  | notFound

/-- The function _run: the output on exit code zero; the empty string when the command
exits nonzero (CalledProcessError) or does not exist (FileNotFoundError) —
both exceptions are caught, none escapes. -/
def runCmd : CmdOutcome → String
  | .exited 0 out => out
  | .exited _ _ => ""
  | .notFound => ""

/-! ## Candidate trace: the specification-side view of the parser

The candidate trace records, with the same line classifiers and the same
current-format/current-resolution bookkeeping as the parser, every
(format, resolution, frame rate) triple that reaches the allow-list test,
without filtering or deduplicating.  The claims about filtering,
deduplication and order are stated against it. -/

structure CState where
  curFmt : Option String
  curRes : Option String
  trace : List (String × String × Nat)

def initC : CState := ⟨none, none, []⟩

/-- One line of the candidate-trace machine. -/
def candStep (st : CState) (line : String) : CState :=
  match classifyFmt line with
  | some fmt => { curFmt := some fmt, curRes := none, trace := st.trace }
  | none =>
    match st.curFmt with
    | none => st
    | some fmt =>
      match sizeRes line with
      | some res => { st with curRes := some res }
      | none =>
        match st.curRes with
        | none => st
        | some res =>
          match fpsTok line with
          | none => st
          | some fps => { st with trace := st.trace ++ [(fmt, res, fps)] }

/-- All candidate triples of a format listing. -/
def candidatesOf (lines : List String) : List (String × String × Nat) :=
  (lines.foldl candStep initC).trace

/-- Append an element only when it is not already present: one step of
first-occurrence deduplication. -/
def dedupAppend {α : Type} [DecidableEq α] (acc : List α) (x : α) : List α :=
  if x ∈ acc then acc else acc ++ [x]

/-- First-occurrence deduplication, written from the spec wording:
duplicates collapse to one entry and the order of first appearance is kept. -/
def dedupFirst {α : Type} [DecidableEq α] (l : List α) : List α := l.foldl dedupAppend []

/-- The candidate pairs of one format that pass both allow-lists, in trace
order. -/
def allowedPairsFor (fmt : String) (tr : List (String × String × Nat)) :
    List (String × Nat) :=
  (tr.filterMap fun t => if t.1 = fmt then some t.2 else none).filter
    fun p => p.1 ∈ DISCORD_RESOLUTIONS ∧ p.2 ∈ DISCORD_FPS

/-- The simulation invariant tying a parser state to a candidate state. -/
def Inv (p : PState) (c : CState) : Prop :=
  p.curFmt = c.curFmt ∧ p.curRes = c.curRes
  ∧ (∀ fmt, (lookupA p.modes fmt).getD [] = dedupFirst (allowedPairsFor fmt c.trace))
  ∧ (∀ fmt x, x ∈ (lookupA p.seen fmt).getD [] ↔ x ∈ (lookupA p.modes fmt).getD [])
  ∧ (∀ fmt, p.curFmt = some fmt →
      (lookupA p.modes fmt).isSome ∧ (lookupA p.seen fmt).isSome)

/-! ## Decimal rendering and Python int parsing -/

/-- The decimal digit characters. -/
def digitChar : Nat → Char
  | 0 => '0'
  | 1 => '1'
  | 2 => '2'
  | 3 => '3'
  | 4 => '4'
  | 5 => '5'
  | 6 => '6'
  | 7 => '7'
  | 8 => '8'
  | _ => '9'

/-- Fuelled base-ten digit expansion (the fuel keeps the recursion
structural so that proofs can evaluate it). -/
def natDigitsAux : Nat → Nat → List Char
  | 0, _ => []
  | fuel + 1, n =>
    if n < 10 then [digitChar n] else natDigitsAux fuel (n / 10) ++ [digitChar (n % 10)]

/-- Base-ten digits of a natural number, most significant first. -/
def natDigits (n : Nat) : List Char := natDigitsAux (n + 1) n

/-- Decimal rendering of a natural number, modelling Python str on a
nonnegative int and f-string interpolation. -/
def natToString (n : Nat) : String := String.mk (natDigits n)

/-- Decimal rendering of an integer, modelling Python str on an int. -/
def intToString : Int → String
  | .ofNat n => natToString n
  | .negSucc n => String.mk ('-' :: natDigits (n + 1))

/-- Digits with single underscores allowed between digits, continuing an
already-started number (Python int literal grammar after the first
digit). -/
def digitsUndVal (acc : Nat) : List Char → Option Nat
  | [] => some acc
  | c :: rest =>
    if c.isDigit then digitsUndVal (acc * 10 + (c.toNat - 48)) rest
    else
      if c = '_' then
        match rest with
        | d :: rest2 =>
          if d.isDigit then digitsUndVal (acc * 10 + (d.toNat - 48)) rest2 else none
        | [] => none
      else none

/-- A nonempty digit run with single underscores between digits. -/
def digitsUnd : List Char → Option Nat
  | [] => none
  | c :: rest => if c.isDigit then digitsUndVal (c.toNat - 48) rest else none

/-- Python int(str): optional surrounding whitespace, optional sign, then
decimal digits with single underscores allowed between digits; anything
else raises ValueError, modelled as none. -/
def pyInt (s : String) : Option Int :=
  match trimWsL s.data with
  | '+' :: rest => (digitsUnd rest).map Int.ofNat
  | '-' :: rest => (digitsUnd rest).map fun n => -(Int.ofNat n)
  | rest => (digitsUnd rest).map Int.ofNat

/-! ## The KWin rule store (class KWinWaylandRule)

The kwinrulesrc file is modelled as its configparser content: a list of
named sections, each an ordered list of option-value pairs, read with
optionxform = str (case preserved).  A successfully parsed file has
distinct section names.  The file-on-disk is Option Store, none meaning
the file does not exist.  One caveat is modelled permissively: configparser
has_option raises NoSectionError when the named section is missing, so the
theorems about the cleanup and removal paths assume a General section is
present. -/

structure StoreSection where
  name : String
  opts : List (String × String)
deriving DecidableEq

abbrev Store := List StoreSection

def sectionNames (st : Store) : List String := st.map StoreSection.name

def hasSection (st : Store) (n : String) : Bool := st.any fun sec => sec.name = n

/-- configparser set inside one section: replace in place or append. -/
def setKV : List (String × String) → String → String → List (String × String)
  | [], k, v => [(k, v)]
  | (k2, v2) :: rest, k, v =>
    if k2 = k then (k, v) :: rest else (k2, v2) :: setKV rest k v

/-- configparser get with fallback none. -/
def getOpt (st : Store) (sec key : String) : Option String :=
  match st with
  | [] => none
  | s :: rest => if s.name = sec then lookupA s.opts key else getOpt rest sec key

def hasOption (st : Store) (sec key : String) : Bool := (getOpt st sec key).isSome

/-- configparser set on an existing section (all call sites ensure the
section exists). -/
def setOpt (st : Store) (sec key v : String) : Store :=
  match st with
  | [] => []
  | s :: rest =>
    if s.name = sec then { s with opts := setKV s.opts key v } :: rest
    else s :: setOpt rest sec key v

def addSection (st : Store) (n : String) : Store := st ++ [⟨n, []⟩]

def removeSection (st : Store) (n : String) : Store := st.filter fun sec => ¬sec.name = n

/-- Outcome of the os.kill(pid, 0) liveness probe. -/
inductive Probe where
  | alive
  | noSuchProcess
  | permissionDenied
deriving DecidableEq

/-- The section-name prefix of this application's rules. -/
def ruleIdPfx : String := "capture-stream-"

def isAppSection (n : String) : Bool := ruleIdPfx.data.isPrefixOf n.data

/-- section.rsplit("-", 1)[1]: the token after the last hyphen (every
caller guarantees a hyphen is present). -/
def afterLastDash (n : String) : String :=
  String.mk ((n.data.reverse.takeWhile fun c => c ≠ '-').reverse)

/-- Is a section stale: int() of the trailing token raising ValueError or
the probe raising ProcessLookupError marks it stale; PermissionError and
success mean the process exists. -/
def isStaleName (probe : Int → Probe) (n : String) : Bool :=
  match pyInt (afterLastDash n) with
  | none => true
  | some pid => probe pid = Probe.noSuchProcess

/-- The stale sections of a store, in section order. -/
def staleOf (probe : Int → Probe) (st : Store) : List String :=
  (sectionNames st).filter fun n => isAppSection n ∧ isStaleName probe n

/-- str.split(",") as a list of strings. -/
def pySplitComma (s : String) : List String := (splitCharL ',' s.data).map String.mk

/-- The nonempty components of a comma-separated list:
the comprehension filtering out falsy entries. -/
def splitNonempty (s : String) : List String := (pySplitComma s).filter fun r => r ≠ ""

def joinCharL (sep : Char) : List (List Char) → List Char
  | [] => []
  | [p] => p
  | p :: ps => p ++ sep :: joinCharL sep ps

/-- Python string join with a comma separator. -/
def joinComma (l : List String) : String := String.mk (joinCharL ',' (l.map String.data))

/-- KWinWaylandRule._cleanup_stale_rules on an existing store: drop every
stale section, and when at least one was found and a General rules list
exists, filter the removed names out of it and refresh the count. -/
def cleanupStaleRules (probe : Int → Probe) (cp : Store) : Store :=
  let stale := staleOf probe cp
  if stale.isEmpty then cp
  else
    let cp2 := stale.foldl removeSection cp
    if hasOption cp2 "General" "rules" then
      let rules := (pySplitComma ((getOpt cp2 "General" "rules").getD "")).filter
        fun r => r ≠ "" ∧ r ∉ stale
      setOpt (setOpt cp2 "General" "rules" (joinComma rules)) "General" "count"
        (natToString rules.length)
    else cp2

/-- The cleanup pass at the file level: a missing file returns
immediately. -/
def cleanupStaleRulesFile (probe : Int → Probe) : Option Store → Option Store
  | none => none
  | some cp => some (cleanupStaleRules probe cp)

/-- The rule id generated for the current process. -/
def ruleIdFor (pid : Nat) : String := ruleIdPfx ++ natToString pid

/-- The option-value pairs written into the rule section. -/
def ruleFields (title w h : String) : List (String × String) :=
  [("Description", title), ("wmclass", "vlc"), ("wmclassmatch", "1"),
   ("title", title), ("titlematch", "2"), ("position", "0,0"),
   ("positionrule", "2"), ("size", w ++ "," ++ h), ("sizerule", "2"),
   ("below", "true"), ("belowrule", "2"), ("noborder", "true"),
   ("noborderrule", "2"), ("minimize", "false"), ("minimizerule", "2")]

/-- KWinWaylandRule.create: garbage-collect, then read the store (empty
when the file is missing), ensure the per-process rule section, write its
fields, ensure General, append the rule id to the rules list when absent,
refresh the count, and return the written store and the active rule id. -/
def createRule (probe : Int → Probe) (pid : Nat) (title w h : String)
    (store : Option Store) : Store × String :=
  let store2 := cleanupStaleRulesFile probe store
  let rid := ruleIdFor pid
  let cp0 := store2.getD []
  let cp1 := if hasSection cp0 rid then cp0 else addSection cp0 rid
  let cp2 := (ruleFields title w h).foldl (fun c kv => setOpt c rid kv.1 kv.2) cp1
  let cp3 := if hasSection cp2 "General" then cp2 else addSection cp2 "General"
  let existing := (getOpt cp3 "General" "rules").getD ""
  let rules := splitNonempty existing
  let rules2 := if rid ∈ rules then rules else rules ++ [rid]
  let cp4 := setOpt (setOpt cp3 "General" "rules" (joinComma rules2)) "General" "count"
    (natToString rules2.length)
  (cp4, rid)

/-- KWinWaylandRule.remove: with an active rule id and an existing file,
delete the rule section, filter the id out of the rules list, refresh the
count, and write back; without an active id or a file, change nothing. -/
def removeRule (ruleId : Option String) (store : Option Store) : Option Store :=
  match ruleId with
  | none => store
  | some rid =>
    match store with
    | none => none
    | some cp =>
      let cp1 := if hasSection cp rid then removeSection cp rid else cp
      let cp2 :=
        if hasOption cp1 "General" "rules" then
          let rules := (pySplitComma ((getOpt cp1 "General" "rules").getD "")).filter
            fun r => r ≠ "" ∧ r ≠ rid
          setOpt (setOpt cp1 "General" "rules" (joinComma rules)) "General" "count"
            (natToString rules.length)
        else cp1
      some cp2

/-! ## Display-scale detection (_get_display_scale)

The structured per-output file kwinoutputconfig.json is modelled at the
parsed-JSON level: a list of sections, each with a name and a data list of
outputs whose optional scale is an exact rational (JSON numbers as
rationals); none for the whole file means missing or unreadable or
unparsable.  The kdeglobals ScaleFactor value is the string the KScreen
lookup returns, the empty string when the file or key is absent.  The two
environment variables are absent or a string. -/

structure JOutput where
  scale : Option ℚ

structure JSection where
  name : String
  data : List JOutput

structure ScaleEnv where
  session : String
  desktop : String
  outputsConfig : Option (List JSection)
  kscreenScaleFactor : String
  qtScaleFactor : Option String
  gdkScale : Option String

/-- Python float() restricted to optionally-signed plain decimal literals
(the shapes configuration scale factors take); exponents, infinities and
underscores are not modelled and yield none. -/
def parseSimpleFloat (s : String) : Option ℚ :=
  let core : List Char → Option ℚ := fun u =>
    let ip := u.takeWhile Char.isDigit
    match u.drop ip.length with
    | [] => if ip = [] then none else some (digitsToNat ip)
    | '.' :: fr =>
      let fp := fr.takeWhile Char.isDigit
      if fr.drop fp.length = [] then
        if ip = [] ∧ fp = [] then none
        else some ((digitsToNat ip : ℚ) + (digitsToNat fp : ℚ) / (10 : ℚ) ^ fp.length)
      else none
    | _ => none
  match trimWsL s.data with
  | '+' :: rest => core rest
  | '-' :: rest => (core rest).map fun q => -q
  | rest => core rest

/-- The nested loop over the parsed JSON: the first output whose scale is
truthy (present and nonzero) and differs from 1.0, scanning every section
named outputs in order. -/
def jsonScaleScan (sections : List JSection) : Option ℚ :=
  sections.findSome? fun sec =>
    if sec.name = "outputs" then
      sec.data.findSome? fun o =>
        o.scale.bind fun s => if s ≠ 0 ∧ s ≠ 1 then some s else none
    else none

/-- The kdeglobals KScreen ScaleFactor fallback: a truthy value is parsed,
a parse failure falls through. -/
def kscreenScale (env : ScaleEnv) : Option ℚ :=
  if env.kscreenScaleFactor = "" then none else parseSimpleFloat env.kscreenScaleFactor

/-- One environment variable: absent or empty is skipped, a parse failure
is skipped. -/
def tryEnvVar : Option String → Option ℚ
  | none => none
  | some v => if v = "" then none else parseSimpleFloat v

/-- The QT_SCALE_FACTOR then GDK_SCALE loop. -/
def envVarScale (env : ScaleEnv) : Option ℚ :=
  match tryEnvVar env.qtScaleFactor with
  | some q => some q
  | none => tryEnvVar env.gdkScale

/-- Is the session a KDE Wayland session (the only case consulting the two
KDE configuration files). -/
def isKdeWayland (env : ScaleEnv) : Bool :=
  env.session = "wayland" && containsSub "KDE" env.desktop

/-- The function _get_display_scale. -/
def getDisplayScale (env : ScaleEnv) : ℚ :=
  if isKdeWayland env then
    match env.outputsConfig.bind jsonScaleScan with
    | some q => q
    | none =>
      match kscreenScale env with
      | some q => q
      | none => (envVarScale env).getD 1
  else (envVarScale env).getD 1

/-- The structured-file rule in the spec's words: the first nonzero,
non-1.0 scale value among the outputs sections' entries, in file order. -/
def structuredScaleSpec (env : ScaleEnv) : Option ℚ :=
  env.outputsConfig.bind fun secs =>
    (((secs.filter fun sec => sec.name = "outputs").flatMap JSection.data).filterMap
      JOutput.scale).find? fun s => s ≠ 0 ∧ s ≠ 1

/-! ## Cascading selection (SettingsWindow) -/

/-- A populated combo box: the appended (id, label) rows and the active
index; no active index means get_active_id is None, read back as the empty
string. -/
structure Combo where
  items : List (String × String)
  active : Option Nat

/-- The function _populate_combo: append every (display, value) row with the value as
id, remember the last index whose value equals the preferred one (0 when
none does), and activate it when the list is nonempty. -/
def populateCombo (items : List (String × String)) (preferred : String) : Combo :=
  { items := items.map fun dv => (dv.2, dv.1),
    active :=
      if items.isEmpty then none
      else some (items.enum.foldl (fun a iv => if iv.2.2 = preferred then iv.1 else a) 0) }

/-- The function _combo_value: the active id or the empty string. -/
def comboValue (c : Combo) : String :=
  match c.active with
  | none => ""
  | some i => ((c.items.get? i).map Prod.fst).getD ""

/-- int(r.split("x")[0]), the sort key of the resolution list. -/
def widthKey (r : String) : Int :=
  (pyInt (((splitCharL 'x' r.data).map String.mk).headD "")).getD 0

/-- sorted(..., key=width, reverse=True) on the distinct resolutions; the
set comprehension is modelled as first-occurrence deduplication and the
stable sort as insertion sort, which agree with Python's stable sort
whenever the keys are distinct. -/
def sortResDesc (l : List String) : List String :=
  List.insertionSort (fun a b => widthKey b ≤ widthKey a) l

/-- sorted(..., reverse=True) on distinct frame rates. -/
def sortNatDesc (l : List Nat) : List Nat := List.insertionSort (· ≥ ·) l

/-- SettingsWindow._on_format_changed: fetch the format's mode list, build
the resolution list (distinct resolutions by descending width) and
repopulate the resolution combo preferring the saved resolution.  Returns
the new modes cache and the combo. -/
def onFormatChanged (modesByFmt : List (String × List (String × Nat)))
    (fmt savedRes : String) : List (String × Nat) × Combo :=
  let cache := (lookupA modesByFmt fmt).getD []
  let resolutions := sortResDesc (dedupFirst (cache.map Prod.fst))
  (cache, populateCombo (resolutions.map fun r => (r, r)) savedRes)

/-- SettingsWindow._on_resolution_changed: distinct frame rates of the
pairs with the chosen resolution, descending, into the framerate combo. -/
def onResolutionChanged (cache : List (String × Nat)) (res savedFps : String) : Combo :=
  let fpsList := sortNatDesc (dedupFirst
    (cache.filterMap fun p => if p.1 = res then some p.2 else none))
  populateCombo (fpsList.map fun f => (natToString f ++ " fps", natToString f)) savedFps

/-- The application's sections of a store, in order. -/
def appSections (st : Store) : List String :=
  (sectionNames st).filter fun n => isAppSection n

/-- The rule-store scenario of the specification: pids 1001 alive, 1002
dead, 9999 probed without permission. -/
def gcStore : Store :=
  [⟨"capture-stream-1001", [("Description", "x")]⟩,
   ⟨"capture-stream-1002", []⟩,
   ⟨"capture-stream-9999", []⟩,
   ⟨"General",
    [("rules", "capture-stream-1001,capture-stream-1002,capture-stream-9999"),
     ("count", "3")]⟩]

def gcProbe : Int → Probe := fun pid =>
  if pid = 1001 then Probe.alive
  else if pid = 1002 then Probe.noSuchProcess
  else if pid = 9999 then Probe.permissionDenied
  else Probe.alive

def gcRules : String := "capture-stream-1001,capture-stream-1002,capture-stream-9999"

/-- A store holding an application section whose trailing token is not a
number. -/
def staleHostStore : Store :=
  [⟨"capture-stream-host", []⟩,
   ⟨"General", [("rules", "capture-stream-host"), ("count", "1")]⟩]

/-- The rules list create leaves behind: the parsed existing list with the
current process's rule id appended when absent. -/
def appendRid (pid : Nat) (existing : String) : List String :=
  if ruleIdFor pid ∈ splitNonempty existing then splitNonempty existing
  else splitNonempty existing ++ [ruleIdFor pid]

/-- A stale-free store whose rules list already mentions the current
process's rule id. -/
def c3Store : Store :=
  [⟨"General", [("rules", "capture-stream-4242"), ("count", "1")]⟩,
   ⟨"capture-stream-4242", [("Description", "old")]⟩]

def c3Probe : Int → Probe := fun _ => Probe.alive

/-- A stale-free store satisfying the amended round-trip conditions. -/
def rtStore : Store :=
  [⟨"General", [("rules", "capture-stream-9"), ("count", "1")]⟩,
   ⟨"capture-stream-9", []⟩]

/-- A format-announcement line of the v4l2-ctl listing. -/
def sampleFmtLine : String := "    [0]: " ++ qs ++ "NV12" ++ qs ++ " (Y/UV 4:2:0)"

def sampleSizeLine : String := "        Size: Discrete 1920x1080"

def sampleIntervalLine : String := "            Interval: Discrete 0.017s (59.940 fps)"

/-! ## Launch-time window sizing (SettingsWindow._launch) -/

/-- Python round() on a rational value: round half to even. -/
def pyRound (q : ℚ) : ℤ :=
  let f := q.floor
  let r := q - f
  if r < 1 / 2 then f
  else
    if 1 / 2 < r then f + 1
    else
      if f % 2 = 0 then f else f + 1

/-- The window-rule size computed in _launch: split the resolution at the
x, divide each dimension by the display scale, round, and stringify. -/
def launchWinSize (resolution : String) (scale : ℚ) : String × String :=
  let parts := (splitCharL 'x' resolution.data).map String.mk
  let w : Int := (pyInt (parts.headD "")).getD 0
  let h : Int := (pyInt ((parts.drop 1).headD "")).getD 0
  (intToString (pyRound ((w : ℚ) / scale)), intToString (pyRound ((h : ℚ) / scale)))

/-! ## Association-list lemmas -/

theorem lookupA_cons {α : Type} (k : String) (v : α) (rest : List (String × α))
    (key : String) :
    lookupA ((k, v) :: rest) key = if k = key then some v else lookupA rest key := rfl

theorem lookupA_append {α : Type} (m1 m2 : List (String × α)) (k : String) :
    lookupA (m1 ++ m2) k =
      match lookupA m1 k with
      | some v => some v
      | none => lookupA m2 k := by
  induction m1 with
  | nil => rfl
  | cons hd tl ih =>
    obtain ⟨k2, v2⟩ := hd
    by_cases h : k2 = k <;> simp [lookupA_cons, h, ih]

theorem getD_lookupA_setdefaultA {α : Type} (m : List (String × α)) (f k : String)
    (d : α) :
    (lookupA (setdefaultA m f d) k).getD d = (lookupA m k).getD d := by
  unfold setdefaultA
  split
  · rfl
  · rw [lookupA_append]
    cases h : lookupA m k with
    | some v => simp
    | none =>
      simp only [lookupA_cons]
      split <;> rfl

theorem isSome_lookupA_setdefaultA_self {α : Type} (m : List (String × α))
    (f : String) (d : α) :
    (lookupA (setdefaultA m f d) f).isSome := by
  unfold setdefaultA
  split
  · assumption
  · rw [lookupA_append]
    cases h : lookupA m f with
    | some v => simp
    | none => simp [lookupA_cons]

theorem isSome_lookupA_setdefaultA_mono {α : Type} (m : List (String × α))
    (f k : String) (d : α) (h : (lookupA m k).isSome) :
    (lookupA (setdefaultA m f d) k).isSome := by
  unfold setdefaultA
  split
  · exact h
  · rw [lookupA_append]
    cases h2 : lookupA m k with
    | some v => simp
    | none => rw [h2] at h; cases h

theorem lookupA_appendA_self {α : Type} (m : List (String × List α)) (key : String)
    (x : α) :
    lookupA (appendA m key x) key = (lookupA m key).map (· ++ [x]) := by
  induction m with
  | nil => rfl
  | cons hd tl ih =>
    obtain ⟨k2, v2⟩ := hd
    by_cases h : k2 = key <;> simp [appendA, lookupA_cons, h, ih]

theorem lookupA_appendA_ne {α : Type} (m : List (String × List α)) (key k : String)
    (x : α) (h : k ≠ key) :
    lookupA (appendA m key x) k = lookupA m k := by
  induction m with
  | nil => rfl
  | cons hd tl ih =>
    obtain ⟨k2, v2⟩ := hd
    simp only [appendA]
    by_cases h2 : k2 = key
    · have hk2 : ¬k2 = k := fun hh => h (hh ▸ h2)
      rw [if_pos h2, lookupA_cons, lookupA_cons, if_neg hk2, if_neg hk2]
    · rw [if_neg h2, lookupA_cons, lookupA_cons]
      by_cases h3 : k2 = k
      · rw [if_pos h3, if_pos h3]
      · rw [if_neg h3, if_neg h3]
        exact ih

theorem isSome_lookupA_appendA {α : Type} (m : List (String × List α))
    (key k : String) (x : α) :
    (lookupA (appendA m key x) k).isSome = (lookupA m k).isSome := by
  by_cases h : k = key
  · subst h
    rw [lookupA_appendA_self]
    cases lookupA m k <;> rfl
  · rw [lookupA_appendA_ne _ _ _ _ h]

/-! ## First-occurrence deduplication lemmas -/

theorem mem_dedupAppend {α : Type} [DecidableEq α] (acc : List α) (a x : α) :
    x ∈ dedupAppend acc a ↔ x ∈ acc ∨ x = a := by
  unfold dedupAppend
  split
  · constructor
    · exact Or.inl
    · rintro (hx | rfl)
      · exact hx
      · assumption
  · simp

theorem mem_foldl_dedupAppend {α : Type} [DecidableEq α] (l acc : List α) (x : α) :
    x ∈ l.foldl dedupAppend acc ↔ x ∈ acc ∨ x ∈ l := by
  induction l generalizing acc with
  | nil => simp
  | cons a t ih =>
    simp only [List.foldl_cons, ih, mem_dedupAppend, List.mem_cons]
    tauto

theorem mem_dedupFirst {α : Type} [DecidableEq α] (l : List α) (x : α) :
    x ∈ dedupFirst l ↔ x ∈ l := by
  unfold dedupFirst
  rw [mem_foldl_dedupAppend]
  simp

theorem dedupFirst_append_one {α : Type} [DecidableEq α] (l : List α) (x : α) :
    dedupFirst (l ++ [x]) = dedupAppend (dedupFirst l) x := by
  unfold dedupFirst
  rw [List.foldl_append]
  rfl

theorem nodup_dedupAppend {α : Type} [DecidableEq α] (acc : List α) (a : α)
    (h : acc.Nodup) : (dedupAppend acc a).Nodup := by
  unfold dedupAppend
  split
  · exact h
  · simp_all [List.nodup_append]

theorem nodup_foldl_dedupAppend {α : Type} [DecidableEq α] (l acc : List α)
    (h : acc.Nodup) : (l.foldl dedupAppend acc).Nodup := by
  induction l generalizing acc with
  | nil => exact h
  | cons a t ih => exact ih _ (nodup_dedupAppend _ _ h)

theorem nodup_dedupFirst {α : Type} [DecidableEq α] (l : List α) :
    (dedupFirst l).Nodup := nodup_foldl_dedupAppend l [] List.nodup_nil

/-! ## Candidate-trace lemmas -/

theorem mem_allowedPairsFor (fmt : String) (tr : List (String × String × Nat))
    (res : String) (fps : Nat) :
    (res, fps) ∈ allowedPairsFor fmt tr ↔
      (fmt, (res, fps)) ∈ tr ∧ res ∈ DISCORD_RESOLUTIONS ∧ fps ∈ DISCORD_FPS := by
  unfold allowedPairsFor
  rw [List.mem_filter]
  simp only [List.mem_filterMap, decide_eq_true_eq]
  constructor
  · rintro ⟨⟨t, ht, hsome⟩, hp⟩
    by_cases h : t.1 = fmt
    · rw [if_pos h] at hsome
      obtain ⟨t1, t2⟩ := t
      cases hsome
      cases h
      exact ⟨ht, hp⟩
    · rw [if_neg h] at hsome
      cases hsome
  · rintro ⟨ht, h1, h2⟩
    exact ⟨⟨(fmt, (res, fps)), ht, by simp⟩, h1, h2⟩

theorem allowedPairsFor_append_one (fmt : String) (tr : List (String × String × Nat))
    (t : String × String × Nat) :
    allowedPairsFor fmt (tr ++ [t]) =
      allowedPairsFor fmt tr ++
        if t.1 = fmt ∧ t.2.1 ∈ DISCORD_RESOLUTIONS ∧ t.2.2 ∈ DISCORD_FPS then [t.2]
        else [] := by
  unfold allowedPairsFor
  rw [List.filterMap_append, List.filter_append]
  congr 1
  by_cases h1 : t.1 = fmt
  · by_cases h2 : t.2.1 ∈ DISCORD_RESOLUTIONS ∧ t.2.2 ∈ DISCORD_FPS <;>
      simp [h1, h2, List.filter]
  · simp [h1]

theorem inv_init : Inv initP initC := by
  refine ⟨rfl, rfl, fun fmt => rfl, fun fmt x => Iff.rfl, fun fmt h => by cases h⟩

theorem inv_step (p : PState) (c : CState) (line : String) (h : Inv p c) :
    Inv (stepLine p line) (candStep c line) := by
  obtain ⟨hf, hr, hm, hs, hk⟩ := h
  cases hcls : classifyFmt line with
  | some fmt =>
    simp only [stepLine, candStep, hcls]
    refine ⟨rfl, rfl, ?_, ?_, ?_⟩
    · intro fmt2
      rw [getD_lookupA_setdefaultA]
      exact hm fmt2
    · intro fmt2 x
      rw [getD_lookupA_setdefaultA, getD_lookupA_setdefaultA]
      exact hs fmt2 x
    · intro fmt2 heq
      cases heq
      exact ⟨isSome_lookupA_setdefaultA_self _ _ _, isSome_lookupA_setdefaultA_self _ _ _⟩
  | none =>
    cases hcf : c.curFmt with
    | none =>
      have hpf : p.curFmt = none := by rw [hf, hcf]
      simp only [stepLine, candStep, hcls, hcf, hpf]
      exact ⟨hf, hr, hm, hs, hk⟩
    | some fmt =>
      have hpf : p.curFmt = some fmt := by rw [hf, hcf]
      cases hsz : sizeRes line with
      | some res =>
        simp only [stepLine, candStep, hcls, hcf, hpf, hsz]
        refine ⟨rfl, rfl, hm, hs, fun fmt2 heq => ?_⟩
        cases heq
        exact hk fmt hpf
      | none =>
        cases hcr : c.curRes with
        | none =>
          have hpr : p.curRes = none := by rw [hr, hcr]
          simp only [stepLine, candStep, hcls, hcf, hpf, hsz, hcr, hpr]
          exact ⟨hf, hr, hm, hs, hk⟩
        | some res =>
          have hpr : p.curRes = some res := by rw [hr, hcr]
          cases hfps : fpsTok line with
          | none =>
            simp only [stepLine, candStep, hcls, hcf, hpf, hsz, hcr, hpr, hfps]
            exact ⟨hf, hr, hm, hs, hk⟩
          | some fps =>
            simp only [stepLine, candStep, hcls, hcf, hpf, hsz, hcr, hpr, hfps]
            by_cases hallow : res ∈ DISCORD_RESOLUTIONS ∧ fps ∈ DISCORD_FPS
            · by_cases hseen : (res, fps) ∈ (lookupA p.seen fmt).getD []
              · rw [if_pos hallow, if_pos hseen]
                refine ⟨hpf, hpr, ?_, hs, hk⟩
                intro fmt2
                rw [allowedPairsFor_append_one]
                by_cases h2 : fmt = fmt2
                · subst h2
                  rw [if_pos ⟨rfl, hallow⟩, dedupFirst_append_one]
                  have hx : (res, fps) ∈ dedupFirst (allowedPairsFor fmt c.trace) := by
                    rw [← hm fmt]
                    exact (hs fmt (res, fps)).mp hseen
                  simp only [dedupAppend]
                  rw [if_pos hx]
                  exact hm fmt
                · rw [if_neg (fun hh => h2 hh.1), List.append_nil]
                  exact hm fmt2
              · rw [if_pos hallow, if_neg hseen]
                have hks := hk fmt hpf
                obtain ⟨vm, hvm⟩ := Option.isSome_iff_exists.mp hks.1
                obtain ⟨vs, hvs⟩ := Option.isSome_iff_exists.mp hks.2
                refine ⟨rfl, rfl, ?_, ?_, ?_⟩
                · intro fmt2
                  rw [allowedPairsFor_append_one]
                  by_cases h2 : fmt = fmt2
                  · subst h2
                    rw [if_pos ⟨rfl, hallow⟩, dedupFirst_append_one]
                    have hx : (res, fps) ∉ dedupFirst (allowedPairsFor fmt c.trace) := by
                      rw [← hm fmt]
                      intro hcon
                      exact hseen ((hs fmt (res, fps)).mpr hcon)
                    simp only [dedupAppend]
                    rw [if_neg hx, ← hm fmt]
                    rw [lookupA_appendA_self, hvm]
                    rfl
                  · rw [if_neg (fun hh => h2 hh.1), List.append_nil,
                      lookupA_appendA_ne _ _ _ _ (fun hh => h2 hh.symm)]
                    exact hm fmt2
                · intro fmt2 x
                  by_cases h2 : fmt = fmt2
                  · subst h2
                    rw [lookupA_appendA_self, lookupA_appendA_self, hvm, hvs]
                    have hsx := hs fmt x
                    rw [hvm, hvs] at hsx
                    simp only [Option.getD_some] at hsx
                    simp only [Option.map_some', Option.getD_some, List.mem_append,
                      List.mem_singleton, hsx]
                  · rw [lookupA_appendA_ne _ _ _ _ (fun hh => h2 hh.symm),
                      lookupA_appendA_ne _ _ _ _ (fun hh => h2 hh.symm)]
                    exact hs fmt2 x
                · intro fmt2 heq
                  cases heq
                  have := hk fmt hpf
                  refine ⟨?_, ?_⟩
                  · rw [isSome_lookupA_appendA p.modes fmt fmt (res, fps)]
                    exact this.1
                  · rw [isSome_lookupA_appendA p.seen fmt fmt (res, fps)]
                    exact this.2
            · rw [if_neg hallow]
              refine ⟨hpf, hpr, ?_, hs, hk⟩
              intro fmt2
              rw [allowedPairsFor_append_one, if_neg (fun hh => hallow hh.2),
                List.append_nil]
              exact hm fmt2

theorem inv_fold (lines : List String) (p : PState) (c : CState) (h : Inv p c) :
    Inv (lines.foldl stepLine p) (lines.foldl candStep c) := by
  induction lines generalizing p c with
  | nil => exact h
  | cons ln t ih => exact ih _ _ (inv_step _ _ _ h)

/-- C1: for every parsed format listing, the mode table under a pixel
format holds exactly the filtered candidate pairs — a (resolution, fps)
pair appears under a format iff it was announced there with an allowed
resolution and an allowed floored frame rate — with duplicates collapsed
to the first occurrence and insertion order preserved. -/
theorem mode_table_characterization (lines : List String) (fmt : String) :
    (lookupA (parseFormatsExt lines) fmt).getD [] =
      dedupFirst (allowedPairsFor fmt (candidatesOf lines))
    ∧ ∀ res fps,
        (res, fps) ∈ (lookupA (parseFormatsExt lines) fmt).getD [] ↔
          (fmt, (res, fps)) ∈ candidatesOf lines ∧
            res ∈ DISCORD_RESOLUTIONS ∧ fps ∈ DISCORD_FPS := by
  have h := inv_fold lines initP initC inv_init
  obtain ⟨-, -, hm, -, -⟩ := h
  refine ⟨hm fmt, fun res fps => ?_⟩
  rw [show parseFormatsExt lines = (lines.foldl stepLine initP).modes from rfl,
    hm fmt, mem_dedupFirst, mem_allowedPairsFor]
  rfl

/-! ## Concrete mode-discovery facts -/

/-- C7: a frame-rate line reporting 59.940 fps under resolution 1920x1080
parses to the floored rate 59, which is not in the allow-list, so the
listing yields the format with no (resolution, fps) entry at all. -/
theorem fps_5994_dropped :
    fpsTok sampleIntervalLine = some 59
    ∧ sizeRes sampleSizeLine = some "1920x1080"
    ∧ parseFormatsExt [sampleFmtLine, sampleSizeLine, sampleIntervalLine] =
        [("NV12", [])] := by decide

/-- C4: when the external listing command exits nonzero or cannot be run,
_run returns the empty string and mode discovery returns an empty mode
table; both failures are caught inside _run, so the caller sees the empty
table, not an exception. -/
theorem discovery_failure_empty (oc : CmdOutcome)
    (h : ∀ out, oc ≠ CmdOutcome.exited 0 out) :
    parseFormatsOutput (runCmd oc) = []
    ∧ ∀ fmt, lookupA (parseFormatsOutput (runCmd oc)) fmt = none := by
  cases oc with
  | exited code out =>
    cases code with
    | zero => exact absurd rfl (h out)
    | succ n => exact ⟨rfl, fun fmt => rfl⟩
  | notFound => exact ⟨rfl, fun fmt => rfl⟩

theorem discovery_failure_empty_witness :
    (∀ out, CmdOutcome.exited 1 "boom" ≠ CmdOutcome.exited 0 out)
    ∧ parseFormatsOutput (runCmd (CmdOutcome.exited 1 "boom")) = [] := by
  have h : ∀ out, CmdOutcome.exited 1 "boom" ≠ CmdOutcome.exited 0 out := by
    intro out hc
    injection hc with h1 h2
    cases h1
  exact ⟨h, (discovery_failure_empty (CmdOutcome.exited 1 "boom") h).1⟩

/-- C9: the raw heading of the Elgato capture card is cleaned by first
stripping the trailing parenthesised usb bus annotation and then
collapsing the identical Left: Right halves to the left half. -/
theorem clean_device_name_elgato :
    String.mk (stripBusL "Elgato Cam Link 4K: Elgato Cam Link 4K (usb-0000:00:14.0-1)".data)
        = "Elgato Cam Link 4K: Elgato Cam Link 4K"
    ∧ cleanDeviceName "Elgato Cam Link 4K: Elgato Cam Link 4K (usb-0000:00:14.0-1)"
        = "Elgato Cam Link 4K" := by decide

/-! ## Rule-store lemmas -/

theorem getOpt_cons (s : StoreSection) (rest : Store) (sec key : String) :
    getOpt (s :: rest) sec key =
      if s.name = sec then lookupA s.opts key else getOpt rest sec key := rfl

theorem hasSection_iff (st : Store) (sec : String) :
    hasSection st sec = true ↔ ∃ s ∈ st, s.name = sec := by
  simp [hasSection, List.any_eq_true]

theorem hasSection_of_getOpt {st : Store} {sec key v : String}
    (h : getOpt st sec key = some v) : hasSection st sec = true := by
  induction st with
  | nil => cases h
  | cons s rest ih =>
    rw [getOpt_cons] at h
    rw [hasSection_iff]
    by_cases h2 : s.name = sec
    · exact ⟨s, List.mem_cons_self _ _, h2⟩
    · rw [if_neg h2] at h
      obtain ⟨s2, hmem, hname⟩ := (hasSection_iff _ _).mp (ih h)
      exact ⟨s2, List.mem_cons_of_mem _ hmem, hname⟩

theorem lookupA_setKV_self (opts : List (String × String)) (k v : String) :
    lookupA (setKV opts k v) k = some v := by
  induction opts with
  | nil => simp [setKV, lookupA_cons]
  | cons hd tl ih =>
    obtain ⟨k2, v2⟩ := hd
    simp only [setKV]
    by_cases h : k2 = k
    · rw [if_pos h, lookupA_cons, if_pos rfl]
    · rw [if_neg h, lookupA_cons, if_neg h]
      exact ih

theorem lookupA_setKV_ne (opts : List (String × String)) (k v k2 : String)
    (h : k2 ≠ k) : lookupA (setKV opts k v) k2 = lookupA opts k2 := by
  induction opts with
  | nil =>
    show lookupA [(k, v)] k2 = lookupA [] k2
    rw [lookupA_cons, if_neg (fun hh => h hh.symm)]
  | cons hd tl ih =>
    obtain ⟨k3, v3⟩ := hd
    simp only [setKV]
    by_cases h3 : k3 = k
    · rw [if_pos h3, lookupA_cons, lookupA_cons, if_neg (fun hh => h hh.symm),
        if_neg (fun hh => h ((h3 ▸ hh : (k:String) = k2)).symm)]
    · rw [if_neg h3, lookupA_cons, lookupA_cons]
      by_cases h4 : k3 = k2
      · rw [if_pos h4, if_pos h4]
      · rw [if_neg h4, if_neg h4]
        exact ih

theorem getOpt_setOpt_self (st : Store) (sec k v : String)
    (h : hasSection st sec = true) :
    getOpt (setOpt st sec k v) sec k = some v := by
  induction st with
  | nil => simp [hasSection] at h
  | cons s rest ih =>
    simp only [setOpt]
    by_cases h2 : s.name = sec
    · rw [if_pos h2]
      rw [getOpt_cons]
      simp only [h2, if_pos rfl]
      exact lookupA_setKV_self _ _ _
    · rw [if_neg h2, getOpt_cons, if_neg h2]
      refine ih ?_
      rw [hasSection_iff] at h ⊢
      obtain ⟨s2, hmem, hname⟩ := h
      rcases List.mem_cons.mp hmem with rfl | hmem2
      · exact absurd hname h2
      · exact ⟨s2, hmem2, hname⟩

theorem getOpt_setOpt_ne_key (st : Store) (sec k v k2 : String) (h : k2 ≠ k) :
    getOpt (setOpt st sec k v) sec k2 = getOpt st sec k2 := by
  induction st with
  | nil => rfl
  | cons s rest ih =>
    simp only [setOpt]
    by_cases h2 : s.name = sec
    · rw [if_pos h2, getOpt_cons, getOpt_cons]
      simp only [h2, if_pos rfl]
      exact lookupA_setKV_ne _ _ _ _ h
    · rw [if_neg h2, getOpt_cons, getOpt_cons, if_neg h2, if_neg h2]
      exact ih

theorem getOpt_setOpt_ne_sec (st : Store) (sec k v sec2 k2 : String)
    (h : sec2 ≠ sec) : getOpt (setOpt st sec k v) sec2 k2 = getOpt st sec2 k2 := by
  induction st with
  | nil => rfl
  | cons s rest ih =>
    simp only [setOpt]
    by_cases h2 : s.name = sec
    · have hne : ¬s.name = sec2 := fun hh => h (hh.symm.trans h2)
      rw [if_pos h2, getOpt_cons, getOpt_cons, if_neg hne, if_neg hne]
    · rw [if_neg h2, getOpt_cons, getOpt_cons]
      by_cases h3 : s.name = sec2
      · rw [if_pos h3, if_pos h3]
      · rw [if_neg h3, if_neg h3]
        exact ih

theorem hasSection_setOpt (st : Store) (sec k v sec2 : String) :
    hasSection (setOpt st sec k v) sec2 = hasSection st sec2 := by
  induction st with
  | nil => rfl
  | cons s rest ih =>
    simp only [setOpt]
    by_cases h2 : s.name = sec
    · rw [if_pos h2]
      simp [hasSection, List.any_cons]
    · rw [if_neg h2]
      simp only [hasSection, List.any_cons] at ih ⊢
      rw [ih]

theorem getOpt_addSection (st : Store) (n sec key : String) :
    getOpt (addSection st n) sec key = getOpt st sec key := by
  induction st with
  | nil =>
    show getOpt [⟨n, []⟩] sec key = none
    rw [getOpt_cons]
    split
    · rfl
    · rfl
  | cons s rest ih =>
    show getOpt (s :: (rest ++ [⟨n, []⟩])) sec key = getOpt (s :: rest) sec key
    rw [getOpt_cons, getOpt_cons]
    split
    · rfl
    · exact ih

theorem hasSection_addSection_self (st : Store) (n : String) :
    hasSection (addSection st n) n = true := by
  rw [hasSection_iff]
  exact ⟨⟨n, []⟩, List.mem_append_right _ (List.mem_singleton_self _), rfl⟩

theorem hasSection_addSection_mono (st : Store) (n sec : String)
    (h : hasSection st sec = true) : hasSection (addSection st n) sec = true := by
  rw [hasSection_iff] at h ⊢
  obtain ⟨s, hmem, hname⟩ := h
  exact ⟨s, List.mem_append_left _ hmem, hname⟩

theorem sectionNames_setOpt (st : Store) (sec k v : String) :
    sectionNames (setOpt st sec k v) = sectionNames st := by
  induction st with
  | nil => rfl
  | cons s rest ih =>
    simp only [setOpt]
    by_cases h2 : s.name = sec
    · rw [if_pos h2]
      rfl
    · rw [if_neg h2]
      simp only [sectionNames, List.map_cons] at ih ⊢
      rw [ih]

theorem sectionNames_removeSection (st : Store) (n : String) :
    sectionNames (removeSection st n) = (sectionNames st).filter fun m => ¬m = n := by
  induction st with
  | nil => rfl
  | cons s rest ih =>
    show sectionNames ((s :: rest).filter _) = (s.name :: sectionNames rest).filter _
    by_cases h : s.name = n
    · rw [List.filter_cons_of_neg (by simp [h]), List.filter_cons_of_neg (by simp [h])]
      exact ih
    · rw [List.filter_cons_of_pos (by simp [h]), List.filter_cons_of_pos (by simp [h])]
      exact congrArg (s.name :: ·) ih

theorem getOpt_removeSection_ne (st : Store) (n sec key : String) (h : sec ≠ n) :
    getOpt (removeSection st n) sec key = getOpt st sec key := by
  induction st with
  | nil => rfl
  | cons s rest ih =>
    show getOpt ((s :: rest).filter _) sec key = _
    by_cases h2 : s.name = n
    · rw [List.filter_cons_of_neg (by simp [h2]), getOpt_cons,
        if_neg (fun hh : s.name = sec => h (hh.symm.trans h2))]
      exact ih
    · rw [List.filter_cons_of_pos (by simp [h2]), getOpt_cons, getOpt_cons]
      split
      · rfl
      · exact ih

theorem hasSection_removeSection_ne (st : Store) (n sec : String) (h : sec ≠ n) :
    hasSection (removeSection st n) sec = hasSection st sec := by
  induction st with
  | nil => rfl
  | cons s rest ih =>
    show ((s :: rest).filter _).any _ = (s :: rest).any _
    by_cases h2 : s.name = n
    · rw [List.filter_cons_of_neg (by simp [h2]), List.any_cons]
      have hd : (decide (s.name = sec)) = false := by
        simp only [decide_eq_false_iff_not]
        intro hh
        exact h (hh.symm.trans h2)
      rw [hd, Bool.false_or]
      exact ih
    · rw [List.filter_cons_of_pos (by simp [h2]), List.any_cons, List.any_cons]
      exact congrArg (_ || ·) ih

theorem getOpt_foldl_removeSection (names : List String) (st : Store)
    (sec key : String) (h : sec ∉ names) :
    getOpt (names.foldl removeSection st) sec key = getOpt st sec key := by
  induction names generalizing st with
  | nil => rfl
  | cons n rest ih =>
    rw [List.foldl_cons, ih _ (fun hh => h (List.mem_cons_of_mem _ hh)),
      getOpt_removeSection_ne _ _ _ _
        (fun hh => h (by rw [hh]; exact List.mem_cons_self _ _))]

theorem hasSection_foldl_removeSection (names : List String) (st : Store)
    (sec : String) (h : sec ∉ names) :
    hasSection (names.foldl removeSection st) sec = hasSection st sec := by
  induction names generalizing st with
  | nil => rfl
  | cons n rest ih =>
    rw [List.foldl_cons, ih _ (fun hh => h (List.mem_cons_of_mem _ hh)),
      hasSection_removeSection_ne _ _ _
        (fun hh => h (by rw [hh]; exact List.mem_cons_self _ _))]

theorem sectionNames_foldl_removeSection (names : List String) (st : Store) :
    sectionNames (names.foldl removeSection st) =
      (sectionNames st).filter fun m => ¬m ∈ names := by
  induction names generalizing st with
  | nil =>
    simp only [List.foldl_nil, List.not_mem_nil, not_false_iff]
    rw [List.filter_eq_self.mpr]
    intro a _
    simp
  | cons n rest ih =>
    rw [List.foldl_cons, ih, sectionNames_removeSection, List.filter_filter]
    apply List.filter_congr
    intro x _
    by_cases h1 : x = n <;> by_cases h2 : x ∈ rest <;> simp [h1, h2]

theorem getOpt_foldl_setOpt_ne (kvs : List (String × String)) (st : Store)
    (rid sec key : String) (h : sec ≠ rid) :
    getOpt (kvs.foldl (fun c kv => setOpt c rid kv.1 kv.2) st) sec key =
      getOpt st sec key := by
  induction kvs generalizing st with
  | nil => rfl
  | cons kv rest ih =>
    rw [List.foldl_cons, ih, getOpt_setOpt_ne_sec _ _ _ _ _ _ h]

theorem hasSection_foldl_setOpt (kvs : List (String × String)) (st : Store)
    (rid sec : String) :
    hasSection (kvs.foldl (fun c kv => setOpt c rid kv.1 kv.2) st) sec =
      hasSection st sec := by
  induction kvs generalizing st with
  | nil => rfl
  | cons kv rest ih =>
    rw [List.foldl_cons, ih, hasSection_setOpt]

/-! ## Split and join lemmas -/

theorem splitCharL_ne_nil (sep : Char) (l : List Char) : splitCharL sep l ≠ [] := by
  cases l with
  | nil => simp [splitCharL]
  | cons c rest =>
    simp only [splitCharL]
    split
    · simp
    · split <;> simp

theorem not_mem_splitCharL (sep : Char) (l : List Char) (p : List Char)
    (h : p ∈ splitCharL sep l) : sep ∉ p := by
  induction l generalizing p with
  | nil =>
    simp only [splitCharL, List.mem_singleton] at h
    subst h
    simp
  | cons c rest ih =>
    simp only [splitCharL] at h
    by_cases hc : c = sep
    · rw [if_pos hc] at h
      rcases List.mem_cons.mp h with rfl | h2
      · simp
      · exact ih _ h2
    · rw [if_neg hc] at h
      cases hsp : splitCharL sep rest with
      | nil => exact absurd hsp (splitCharL_ne_nil _ _)
      | cons q qs =>
        rw [hsp] at h
        rcases List.mem_cons.mp h with rfl | h2
        · intro hmem
          rcases List.mem_cons.mp hmem with heq | h3
          · exact hc heq.symm
          · exact ih q (by rw [hsp]; exact List.mem_cons_self _ _) h3
        · exact ih p (by rw [hsp]; exact List.mem_cons_of_mem _ h2)

theorem splitCharL_no_sep (sep : Char) (p : List Char) (h : sep ∉ p) :
    splitCharL sep p = [p] := by
  induction p with
  | nil => rfl
  | cons c rest ih =>
    have hc : ¬c = sep := fun hh => h (hh ▸ List.mem_cons_self _ _)
    simp only [splitCharL, if_neg hc]
    rw [ih fun hh => h (List.mem_cons_of_mem _ hh)]

theorem splitCharL_append_sep (sep : Char) (p t : List Char) (h : sep ∉ p) :
    splitCharL sep (p ++ sep :: t) = p :: splitCharL sep t := by
  induction p with
  | nil => simp [splitCharL]
  | cons c rest ih =>
    have hc : ¬c = sep := fun hh => h (hh ▸ List.mem_cons_self _ _)
    simp only [List.cons_append, splitCharL, if_neg hc, List.append_eq]
    rw [ih fun hh => h (List.mem_cons_of_mem _ hh)]

theorem splitCharL_joinCharL (sep : Char) (parts : List (List Char))
    (hne : parts ≠ []) (hc : ∀ p ∈ parts, sep ∉ p) :
    splitCharL sep (joinCharL sep parts) = parts := by
  induction parts with
  | nil => exact absurd rfl hne
  | cons p ps ih =>
    cases ps with
    | nil =>
      rw [show joinCharL sep [p] = p from rfl]
      exact splitCharL_no_sep _ _ (hc p (List.mem_cons_self _ _))
    | cons p2 ps2 =>
      rw [show joinCharL sep (p :: p2 :: ps2) = p ++ sep :: joinCharL sep (p2 :: ps2)
          from rfl,
        splitCharL_append_sep _ _ _ (hc p (List.mem_cons_self _ _)),
        ih (by simp) fun q hq => hc q (List.mem_cons_of_mem _ hq)]

theorem pySplitComma_joinComma (l : List String) (hne : l ≠ [])
    (hc : ∀ p ∈ l, ',' ∉ p.data) :
    pySplitComma (joinComma l) = l := by
  unfold pySplitComma joinComma
  rw [show (String.mk (joinCharL ',' (l.map String.data))).data =
      joinCharL ',' (l.map String.data) from rfl]
  rw [splitCharL_joinCharL ',' (l.map String.data) (by simpa using hne)
    (by
      intro p hp
      obtain ⟨s, hs, rfl⟩ := List.mem_map.mp hp
      exact hc s hs)]
  rw [List.map_map, show String.mk ∘ String.data = id from funext fun s => rfl,
    List.map_id]

/-! ## Decimal-digit lemmas -/

theorem digitChar_ne_comma (k : Nat) : digitChar k ≠ ',' := by
  unfold digitChar
  split <;> decide

theorem comma_not_mem_natDigitsAux (fuel n : Nat) : ',' ∉ natDigitsAux fuel n := by
  induction fuel generalizing n with
  | zero => simp [natDigitsAux]
  | succ f ih =>
    simp only [natDigitsAux]
    split
    · simp only [List.mem_singleton]
      exact fun hh => digitChar_ne_comma n hh.symm
    · intro hmem
      rcases List.mem_append.mp hmem with h1 | h2
      · exact ih _ h1
      · rw [List.mem_singleton] at h2
        exact digitChar_ne_comma _ h2.symm

theorem comma_not_mem_ruleIdFor (pid : Nat) : ',' ∉ (ruleIdFor pid).data := by
  have heq : (ruleIdFor pid).data = "capture-stream-".data ++ natDigits pid := rfl
  rw [heq]
  intro hmem
  rcases List.mem_append.mp hmem with h1 | h2
  · exact absurd h1 (by decide)
  · exact comma_not_mem_natDigitsAux _ _ h2

theorem ruleIdFor_ne_general (pid : Nat) : ruleIdFor pid ≠ "General" := by
  intro h
  have h3 : (ruleIdFor pid).data.head? = some 'c' := rfl
  rw [h] at h3
  exact absurd h3 (by decide)

/-! ## Stale-section lemmas -/

theorem mem_staleOf (probe : Int → Probe) (st : Store) (n : String) :
    n ∈ staleOf probe st ↔
      n ∈ sectionNames st ∧ isAppSection n = true ∧ isStaleName probe n = true := by
  unfold staleOf
  rw [List.mem_filter]
  simp [and_assoc]

theorem staleOf_ne_general (probe : Int → Probe) (st : Store) (n : String)
    (h : n ∈ staleOf probe st) : n ≠ "General" := by
  intro heq
  have h2 := ((mem_staleOf _ _ _).mp h).2.1
  rw [heq] at h2
  exact absurd h2 (by decide)

theorem filter_and_decomp (l stale : List String) :
    l.filter (fun r => r ≠ "" ∧ r ∉ stale) =
      (l.filter fun r => r ≠ "").filter fun r => r ∉ stale := by
  rw [List.filter_filter]
  apply List.filter_congr
  intro x _
  by_cases h1 : x = "" <;> by_cases h2 : x ∈ stale <;> simp [h1, h2]

/-- C2: the stale-rule GC pass removes exactly the application sections
whose probe reports no-such-process (a denied or successful probe keeps
the section), and afterwards the General rules list and count reflect
exactly the remaining application sections, provided they did so before
(the rules entry lists the application sections and is in normalized
comma-separated form, and the count matches). -/
theorem stale_rule_gc (probe : Int → Probe) (st : Store) (rs : String)
    (hrules : getOpt st "General" "rules" = some rs)
    (hnorm : joinComma (splitNonempty rs) = rs)
    (hmatch : splitNonempty rs = appSections st)
    (hcount : getOpt st "General" "count" =
      some (natToString (appSections st).length)) :
    sectionNames (cleanupStaleRules probe st) =
        (sectionNames st).filter
          (fun n => ¬(isAppSection n = true ∧ isStaleName probe n = true))
    ∧ getOpt (cleanupStaleRules probe st) "General" "rules" =
        some (joinComma (appSections (cleanupStaleRules probe st)))
    ∧ getOpt (cleanupStaleRules probe st) "General" "count" =
        some (natToString (appSections (cleanupStaleRules probe st)).length) := by
  have hG : hasSection st "General" = true := hasSection_of_getOpt hrules
  by_cases hemp : staleOf probe st = []
  · have hclean : cleanupStaleRules probe st = st := by
      simp only [cleanupStaleRules]
      rw [hemp]
      rfl
    rw [hclean]
    refine ⟨?_, ?_, ?_⟩
    · symm
      rw [List.filter_eq_self]
      intro a ha
      simp only [decide_eq_true_eq]
      intro hh
      have hmem : a ∈ staleOf probe st := (mem_staleOf _ _ _).mpr ⟨ha, hh.1, hh.2⟩
      rw [hemp] at hmem
      cases hmem
    · rw [hrules, ← hmatch, hnorm]
    · exact hcount
  · obtain ⟨s0, rest0, hsr⟩ : ∃ a l, staleOf probe st = a :: l := by
      cases h : staleOf probe st with
      | nil => exact absurd h hemp
      | cons a l => exact ⟨a, l, rfl⟩
    have hstale' : ¬((staleOf probe st).isEmpty = true) := by
      rw [hsr]
      simp
    have hGns : "General" ∉ staleOf probe st :=
      fun hmem => staleOf_ne_general _ _ _ hmem rfl
    have h2 : getOpt ((staleOf probe st).foldl removeSection st) "General" "rules" =
        some rs := by
      rw [getOpt_foldl_removeSection _ _ _ _ hGns]
      exact hrules
    have hOpt : hasOption ((staleOf probe st).foldl removeSection st) "General"
        "rules" = true := by
      rw [hasOption, h2]
      rfl
    have hGsec : hasSection ((staleOf probe st).foldl removeSection st) "General" =
        true := by
      rw [hasSection_foldl_removeSection _ _ _ hGns]
      exact hG
    have hrules2 :
        (pySplitComma
            ((getOpt ((staleOf probe st).foldl removeSection st) "General"
              "rules").getD "")).filter
          (fun r => r ≠ "" ∧ r ∉ staleOf probe st) =
        (appSections st).filter fun r => r ∉ staleOf probe st := by
      rw [h2]
      show (pySplitComma rs).filter _ = _
      rw [filter_and_decomp, show (pySplitComma rs).filter (fun r => r ≠ "") =
        splitNonempty rs from rfl, hmatch]
    have hfinal : cleanupStaleRules probe st =
        setOpt
          (setOpt ((staleOf probe st).foldl removeSection st) "General" "rules"
            (joinComma ((appSections st).filter fun r => r ∉ staleOf probe st)))
          "General" "count"
          (natToString
            ((appSections st).filter fun r => r ∉ staleOf probe st).length) := by
      simp only [cleanupStaleRules]
      rw [if_neg hstale', if_pos hOpt, hrules2]
    have hnames : sectionNames (cleanupStaleRules probe st) =
        (sectionNames st).filter fun m => ¬m ∈ staleOf probe st := by
      rw [hfinal, sectionNames_setOpt, sectionNames_setOpt,
        sectionNames_foldl_removeSection]
    have happ : appSections (cleanupStaleRules probe st) =
        (appSections st).filter fun r => r ∉ staleOf probe st := by
      unfold appSections
      rw [hnames, List.filter_filter, List.filter_filter]
      apply List.filter_congr
      intro x _
      by_cases h3 : isAppSection x = true <;> by_cases h4 : x ∈ staleOf probe st <;>
        simp [h3, h4]
    refine ⟨?_, ?_, ?_⟩
    · rw [hnames]
      apply List.filter_congr
      intro x hx
      by_cases h5 : x ∈ staleOf probe st
      · have hm := (mem_staleOf _ _ _).mp h5
        simp [h5, hm.2.1, hm.2.2]
      · have hno : ¬(isAppSection x = true ∧ isStaleName probe x = true) :=
          fun hh => h5 ((mem_staleOf _ _ _).mpr ⟨hx, hh.1, hh.2⟩)
        simp [h5, hno]
    · rw [happ, hfinal, getOpt_setOpt_ne_key _ _ _ _ _ (by decide),
        getOpt_setOpt_self _ _ _ _ hGsec]
    · rw [happ, hfinal, getOpt_setOpt_self]
      rw [hasSection_setOpt]
      exact hGsec

theorem stale_rule_gc_witness :
    (getOpt gcStore "General" "rules" = some gcRules
      ∧ joinComma (splitNonempty gcRules) = gcRules
      ∧ splitNonempty gcRules = appSections gcStore
      ∧ getOpt gcStore "General" "count" =
          some (natToString (appSections gcStore).length))
    ∧ (sectionNames (cleanupStaleRules gcProbe gcStore) =
          (sectionNames gcStore).filter
            (fun n => ¬(isAppSection n = true ∧ isStaleName gcProbe n = true))
        ∧ getOpt (cleanupStaleRules gcProbe gcStore) "General" "rules" =
            some (joinComma (appSections (cleanupStaleRules gcProbe gcStore)))
        ∧ getOpt (cleanupStaleRules gcProbe gcStore) "General" "count" =
            some
              (natToString
                (appSections (cleanupStaleRules gcProbe gcStore)).length)) :=
  ⟨⟨by decide, by decide, by decide, by decide⟩,
    stale_rule_gc gcProbe gcStore gcRules (by decide) (by decide) (by decide)
      (by decide)⟩

/-- C10: an application-prefixed section whose token after the last hyphen
is not a Python integer is classified stale — int() raises ValueError,
caught by the same branch as the no-such-process probe — and the GC pass
removes it (for a store carrying the General section, which configparser's
has_option requires). -/
theorem nonnumeric_suffix_stale (probe : Int → Probe) (st : Store) (n : String)
    (hmem : n ∈ sectionNames st)
    (hpfx : isAppSection n = true)
    (hparse : pyInt (afterLastDash n) = none)
    (_hG : hasSection st "General" = true) :
    isStaleName probe n = true ∧ n ∉ sectionNames (cleanupStaleRules probe st) := by
  have hstl : isStaleName probe n = true := by
    simp [isStaleName, hparse]
  refine ⟨hstl, ?_⟩
  have hmemstale : n ∈ staleOf probe st := (mem_staleOf _ _ _).mpr ⟨hmem, hpfx, hstl⟩
  have hstale' : ¬((staleOf probe st).isEmpty = true) := by
    cases h : staleOf probe st with
    | nil => rw [h] at hmemstale; cases hmemstale
    | cons a l => simp
  have hnames : sectionNames (cleanupStaleRules probe st) =
      (sectionNames st).filter fun m => ¬m ∈ staleOf probe st := by
    simp only [cleanupStaleRules]
    rw [if_neg hstale']
    by_cases hOpt : hasOption ((staleOf probe st).foldl removeSection st) "General"
        "rules" = true
    · rw [if_pos hOpt, sectionNames_setOpt, sectionNames_setOpt,
        sectionNames_foldl_removeSection]
    · rw [if_neg hOpt, sectionNames_foldl_removeSection]
  rw [hnames]
  intro hmem2
  have hnot := (List.mem_filter.mp hmem2).2
  simp only [decide_eq_true_eq] at hnot
  exact hnot hmemstale

theorem nonnumeric_suffix_stale_witness :
    ("capture-stream-host" ∈ sectionNames staleHostStore
      ∧ isAppSection "capture-stream-host" = true
      ∧ pyInt (afterLastDash "capture-stream-host") = none
      ∧ hasSection staleHostStore "General" = true)
    ∧ (isStaleName c3Probe "capture-stream-host" = true
      ∧ "capture-stream-host" ∉
          sectionNames (cleanupStaleRules c3Probe staleHostStore)) :=
  ⟨⟨by decide, by decide, by decide, by decide⟩,
    nonnumeric_suffix_stale c3Probe staleHostStore "capture-stream-host" (by decide)
      (by decide) (by decide) (by decide)⟩

/-! ## Create and remove on the rule store -/

theorem comma_not_mem_splitNonempty (s p : String) (h : p ∈ splitNonempty s) :
    ',' ∉ p.data := by
  unfold splitNonempty pySplitComma at h
  have h2 := (List.mem_filter.mp h).1
  obtain ⟨q, hq, rfl⟩ := List.mem_map.mp h2
  exact not_mem_splitCharL ',' s.data q hq

theorem cleanup_no_stale (probe : Int → Probe) (st : Store)
    (hstale : staleOf probe st = []) : cleanupStaleRules probe st = st := by
  simp only [cleanupStaleRules]
  rw [hstale]
  rfl

theorem createRule_general (probe : Int → Probe) (pid : Nat) (title w h : String)
    (st : Store) (hstale : staleOf probe st = [])
    (hG : hasSection st "General" = true) :
    (createRule probe pid title w h (some st)).2 = ruleIdFor pid
    ∧ hasSection (createRule probe pid title w h (some st)).1 "General" = true
    ∧ getOpt (createRule probe pid title w h (some st)).1 "General" "rules" =
        some (joinComma (appendRid pid ((getOpt st "General" "rules").getD "")))
    ∧ getOpt (createRule probe pid title w h (some st)).1 "General" "count" =
        some (natToString
          (appendRid pid ((getOpt st "General" "rules").getD "")).length) := by
  have hne : ("General" : String) ≠ ruleIdFor pid :=
    fun hh => ruleIdFor_ne_general pid hh.symm
  simp only [createRule, cleanupStaleRulesFile, cleanup_no_stale probe st hstale,
    Option.getD_some, appendRid]
  by_cases h1 : hasSection st (ruleIdFor pid) = true
  · rw [if_pos h1]
    have hc2G : hasSection
        (List.foldl (fun c kv => setOpt c (ruleIdFor pid) kv.1 kv.2) st
          (ruleFields title w h)) "General" = true := by
      rw [hasSection_foldl_setOpt]
      exact hG
    rw [if_pos hc2G]
    have hgr : getOpt
        (List.foldl (fun c kv => setOpt c (ruleIdFor pid) kv.1 kv.2) st
          (ruleFields title w h)) "General" "rules" =
        getOpt st "General" "rules" := getOpt_foldl_setOpt_ne _ _ _ _ _ hne
    rw [hgr]
    refine ⟨trivial, ?_, ?_, ?_⟩
    · rw [hasSection_setOpt, hasSection_setOpt]
      exact hc2G
    · rw [getOpt_setOpt_ne_key _ _ _ _ _ (by decide),
        getOpt_setOpt_self _ _ _ _ hc2G]
    · rw [getOpt_setOpt_self]
      rw [hasSection_setOpt]
      exact hc2G
  · rw [if_neg h1]
    have hc2G : hasSection
        (List.foldl (fun c kv => setOpt c (ruleIdFor pid) kv.1 kv.2)
          (addSection st (ruleIdFor pid)) (ruleFields title w h)) "General" =
        true := by
      rw [hasSection_foldl_setOpt]
      exact hasSection_addSection_mono _ _ _ hG
    rw [if_pos hc2G]
    have hgr : getOpt
        (List.foldl (fun c kv => setOpt c (ruleIdFor pid) kv.1 kv.2)
          (addSection st (ruleIdFor pid)) (ruleFields title w h)) "General"
          "rules" = getOpt st "General" "rules" := by
      rw [getOpt_foldl_setOpt_ne _ _ _ _ _ hne, getOpt_addSection]
    rw [hgr]
    refine ⟨trivial, ?_, ?_, ?_⟩
    · rw [hasSection_setOpt, hasSection_setOpt]
      exact hc2G
    · rw [getOpt_setOpt_ne_key _ _ _ _ _ (by decide),
        getOpt_setOpt_self _ _ _ _ hc2G]
    · rw [getOpt_setOpt_self]
      rw [hasSection_setOpt]
      exact hc2G

theorem removeRule_general (rid : String) (cp : Store) (rs2 : String)
    (hGr : getOpt cp "General" "rules" = some rs2)
    (hGsec : hasSection cp "General" = true)
    (hrid : rid ≠ "General") :
    ∃ st2 : Store,
      removeRule (some rid) (some cp) = some st2
      ∧ getOpt st2 "General" "rules" =
          some (joinComma
            ((pySplitComma rs2).filter fun r => r ≠ "" ∧ r ≠ rid))
      ∧ getOpt st2 "General" "count" =
          some (natToString
            ((pySplitComma rs2).filter fun r => r ≠ "" ∧ r ≠ rid).length) := by
  have hGne : ("General" : String) ≠ rid := fun hh => hrid hh.symm
  simp only [removeRule]
  by_cases h1 : hasSection cp rid = true
  · rw [if_pos h1]
    have hg2 : getOpt (removeSection cp rid) "General" "rules" = some rs2 := by
      rw [getOpt_removeSection_ne _ _ _ _ hGne]
      exact hGr
    have hs2 : hasSection (removeSection cp rid) "General" = true := by
      rw [hasSection_removeSection_ne _ _ _ hGne]
      exact hGsec
    have hOpt : hasOption (removeSection cp rid) "General" "rules" = true := by
      rw [hasOption, hg2]
      rfl
    rw [if_pos hOpt, hg2]
    simp only [Option.getD_some]
    refine ⟨_, rfl, ?_, ?_⟩
    · rw [getOpt_setOpt_ne_key _ _ _ _ _ (by decide),
        getOpt_setOpt_self _ _ _ _ hs2]
    · rw [getOpt_setOpt_self]
      rw [hasSection_setOpt]
      exact hs2
  · rw [if_neg h1]
    have hOpt : hasOption cp "General" "rules" = true := by
      rw [hasOption, hGr]
      rfl
    rw [if_pos hOpt, hGr]
    simp only [Option.getD_some]
    refine ⟨_, rfl, ?_, ?_⟩
    · rw [getOpt_setOpt_ne_key _ _ _ _ _ (by decide),
        getOpt_setOpt_self _ _ _ _ hGsec]
    · rw [getOpt_setOpt_self]
      rw [hasSection_setOpt]
      exact hGsec

/-- C3 counterexample: a stale-free store whose General rules entry already
names the current process's rule id.  create appends nothing (the id is
already listed), remove strips the id, so the rules list and count do not
return to their pre-create values. -/
theorem create_remove_not_roundtrip :
    staleOf c3Probe c3Store = []
    ∧ getOpt
        ((removeRule (some (createRule c3Probe 4242 "t" "1920" "1080"
            (some c3Store)).2)
          (some (createRule c3Probe 4242 "t" "1920" "1080"
            (some c3Store)).1)).getD [])
        "General" "rules" ≠ getOpt c3Store "General" "rules"
    ∧ getOpt
        ((removeRule (some (createRule c3Probe 4242 "t" "1920" "1080"
            (some c3Store)).2)
          (some (createRule c3Probe 4242 "t" "1920" "1080"
            (some c3Store)).1)).getD [])
        "General" "count" ≠ getOpt c3Store "General" "count" := by decide

/-- C3 amended: on a stale-free store whose General rules entry is a
normalized comma-separated list that does not yet mention the current
process's rule id and whose count matches the list, create followed
immediately by remove restores the rules list and the count to their
pre-create values. -/
theorem create_remove_roundtrip (probe : Int → Probe) (pid : Nat)
    (title w h : String) (st : Store) (rs : String)
    (hstale : staleOf probe st = [])
    (hrules : getOpt st "General" "rules" = some rs)
    (hnorm : joinComma (splitNonempty rs) = rs)
    (hnotin : ruleIdFor pid ∉ splitNonempty rs)
    (_hcount : getOpt st "General" "count" =
      some (natToString (splitNonempty rs).length)) :
    ∃ st2 : Store,
      removeRule (some (createRule probe pid title w h (some st)).2)
          (some (createRule probe pid title w h (some st)).1) = some st2
      ∧ getOpt st2 "General" "rules" = some rs
      ∧ getOpt st2 "General" "count" =
          some (natToString (splitNonempty rs).length) := by
  obtain ⟨hrid2, hGsec4, hrules4, hcount4⟩ :=
    createRule_general probe pid title w h st hstale (hasSection_of_getOpt hrules)
  rw [hrules] at hrules4
  simp only [Option.getD_some] at hrules4
  have happ : appendRid pid rs = splitNonempty rs ++ [ruleIdFor pid] := by
    unfold appendRid
    rw [if_neg hnotin]
  rw [happ] at hrules4
  rw [hrid2]
  obtain ⟨st2, hrem, hr2, hc2⟩ :=
    removeRule_general (ruleIdFor pid) (createRule probe pid title w h (some st)).1
      (joinComma (splitNonempty rs ++ [ruleIdFor pid])) hrules4 hGsec4
      (ruleIdFor_ne_general pid)
  have hsplit : pySplitComma (joinComma (splitNonempty rs ++ [ruleIdFor pid])) =
      splitNonempty rs ++ [ruleIdFor pid] := by
    apply pySplitComma_joinComma
    · simp
    · intro p hp
      rcases List.mem_append.mp hp with h1 | h2
      · exact comma_not_mem_splitNonempty rs p h1
      · rw [List.mem_singleton] at h2
        subst h2
        exact comma_not_mem_ruleIdFor pid
  have hfilter : (pySplitComma (joinComma (splitNonempty rs ++
      [ruleIdFor pid]))).filter (fun r => r ≠ "" ∧ r ≠ ruleIdFor pid) =
      splitNonempty rs := by
    rw [hsplit, List.filter_append]
    have hl : (splitNonempty rs).filter (fun r => r ≠ "" ∧ r ≠ ruleIdFor pid) =
        splitNonempty rs := by
      rw [List.filter_eq_self]
      intro a ha
      simp only [decide_eq_true_eq]
      refine ⟨?_, ?_⟩
      · have h2 := (List.mem_filter.mp ha).2
        simpa using h2
      · intro heq
        rw [heq] at ha
        exact hnotin ha
    have hr : ([ruleIdFor pid]).filter (fun r => r ≠ "" ∧ r ≠ ruleIdFor pid) =
        [] := by simp
    rw [hl, hr, List.append_nil]
  rw [hfilter] at hr2 hc2
  rw [hnorm] at hr2
  exact ⟨st2, hrem, hr2, hc2⟩

theorem create_remove_roundtrip_witness :
    (staleOf c3Probe rtStore = []
      ∧ getOpt rtStore "General" "rules" = some "capture-stream-9"
      ∧ joinComma (splitNonempty "capture-stream-9") = "capture-stream-9"
      ∧ ruleIdFor 4242 ∉ splitNonempty "capture-stream-9"
      ∧ getOpt rtStore "General" "count" =
          some (natToString (splitNonempty "capture-stream-9").length))
    ∧ ∃ st2 : Store,
        removeRule (some (createRule c3Probe 4242 "t" "1920" "1080"
            (some rtStore)).2)
          (some (createRule c3Probe 4242 "t" "1920" "1080" (some rtStore)).1) =
          some st2
        ∧ getOpt st2 "General" "rules" = some "capture-stream-9"
        ∧ getOpt st2 "General" "count" =
            some (natToString (splitNonempty "capture-stream-9").length) :=
  ⟨⟨by decide, by decide, by decide, by decide, by decide⟩,
    create_remove_roundtrip c3Probe 4242 "t" "1920" "1080" rtStore
      "capture-stream-9" (by decide) (by decide) (by decide) (by decide)
      (by decide)⟩

/-! ## Display-scale lemmas -/

theorem findSome?_scale_eq (outs : List JOutput) :
    (outs.findSome? fun o =>
        o.scale.bind fun s => if s ≠ 0 ∧ s ≠ 1 then some s else none) =
      (outs.filterMap JOutput.scale).find? fun s => s ≠ 0 ∧ s ≠ 1 := by
  induction outs with
  | nil => rfl
  | cons o t ih =>
    rw [List.findSome?_cons, List.filterMap_cons]
    cases hs : o.scale with
    | none =>
      simp only [Option.none_bind]
      exact ih
    | some s =>
      simp only [Option.some_bind]
      by_cases hcond : s ≠ 0 ∧ s ≠ 1
      · rw [if_pos hcond, List.find?_cons_of_pos _ (by simpa using hcond)]
      · rw [if_neg hcond, List.find?_cons_of_neg _ (by simpa using hcond)]
        exact ih

theorem jsonScaleScan_eq (secs : List JSection) :
    jsonScaleScan secs =
      (((secs.filter fun sec => sec.name = "outputs").flatMap
        JSection.data).filterMap JOutput.scale).find? fun s => s ≠ 0 ∧ s ≠ 1 := by
  induction secs with
  | nil => rfl
  | cons sec t ih =>
    simp only [jsonScaleScan] at ih ⊢
    rw [List.findSome?_cons]
    by_cases hname : sec.name = "outputs"
    · rw [if_pos hname, List.filter_cons_of_pos (by simp [hname]),
        List.flatMap_cons, List.filterMap_append, findSome?_scale_eq,
        List.find?_append]
      cases hf : (sec.data.filterMap JOutput.scale).find? fun s => s ≠ 0 ∧ s ≠ 1 with
      | some q => rfl
      | none =>
        rw [Option.none_or]
        exact ih
    · rw [if_neg hname, List.filter_cons_of_neg (by simp [hname])]
      exact ih

/-- C5: display-scale detection returns, in priority order, the first
nonzero, non-1.0 scale of the structured per-output file (stated through
the flattened first-match form), else the legacy kdeglobals ScaleFactor,
else the first parsing environment variable, else 1; a missing or
unparsable source falls through to the next.  The two KDE files are
consulted exactly on a KDE Wayland session. -/
theorem display_scale_priority (env : ScaleEnv) :
    getDisplayScale env =
      if isKdeWayland env then
        match structuredScaleSpec env with
        | some q => q
        | none =>
          match kscreenScale env with
          | some q => q
          | none =>
            match envVarScale env with
            | some q => q
            | none => 1
      else
        match envVarScale env with
        | some q => q
        | none => 1 := by
  unfold getDisplayScale structuredScaleSpec
  by_cases hk : isKdeWayland env = true
  · rw [if_pos hk, if_pos hk]
    cases hc : env.outputsConfig with
    | none =>
      rw [Option.none_bind, Option.none_bind]
      cases ks : kscreenScale env with
      | some q => rfl
      | none => cases ev : envVarScale env <;> rfl
    | some secs =>
      rw [Option.some_bind, Option.some_bind, jsonScaleScan_eq]
      cases hf : (((secs.filter fun sec => sec.name = "outputs").flatMap
          JSection.data).filterMap JOutput.scale).find?
            fun s => s ≠ 0 ∧ s ≠ 1 with
      | some q => rfl
      | none =>
        cases ks : kscreenScale env with
        | some q => rfl
        | none => cases ev : envVarScale env <;> rfl
  · rw [if_neg hk, if_neg hk]
    cases ev : envVarScale env <;> rfl

/-! ## Cascading-selection lemmas -/

theorem all_eq_singleton {α : Type} (l : List α) (b : α) (hne : l ≠ [])
    (hnd : l.Nodup) (hall : ∀ x ∈ l, x = b) : l = [b] := by
  cases l with
  | nil => exact absurd rfl hne
  | cons x t =>
    have hx : x = b := hall x (List.mem_cons_self _ _)
    subst hx
    cases t with
    | nil => rfl
    | cons y t2 =>
      have hy : y = x := hall y (List.mem_cons_of_mem _ (List.mem_cons_self _ _))
      have hnot : x ∉ y :: t2 := (List.nodup_cons.mp hnd).1
      exact absurd (by rw [← hy]; exact List.mem_cons_self _ _ : x ∈ y :: t2) hnot

theorem nodup_pair {α : Type} (l : List α) (a b : α) (hab : a ≠ b)
    (hnd : l.Nodup) (hmem : ∀ x, x ∈ l ↔ x = a ∨ x = b) :
    l = [a, b] ∨ l = [b, a] := by
  have ha : a ∈ l := (hmem a).mpr (Or.inl rfl)
  have hb : b ∈ l := (hmem b).mpr (Or.inr rfl)
  cases l with
  | nil => cases ha
  | cons x t =>
    have hxt : x ∉ t := (List.nodup_cons.mp hnd).1
    have hndt : t.Nodup := (List.nodup_cons.mp hnd).2
    rcases (hmem x).mp (List.mem_cons_self _ _) with rfl | rfl
    · left
      have hbt : b ∈ t := by
        rcases List.mem_cons.mp hb with heq | h
        · exact absurd heq.symm hab
        · exact h
      have ht : t = [b] := by
        refine all_eq_singleton t b (fun hh => by rw [hh] at hbt; cases hbt) hndt ?_
        intro y hy
        rcases (hmem y).mp (List.mem_cons_of_mem _ hy) with rfl | rfl
        · exact absurd hy hxt
        · rfl
      rw [ht]
    · right
      have hat : a ∈ t := by
        rcases List.mem_cons.mp ha with heq | h
        · exact absurd heq hab
        · exact h
      have ht : t = [a] := by
        refine all_eq_singleton t a (fun hh => by rw [hh] at hat; cases hat) hndt ?_
        intro y hy
        rcases (hmem y).mp (List.mem_cons_of_mem _ hy) with rfl | rfl
        · rfl
        · exact absurd hy hxt
      rw [ht]

theorem mem_fps_filterMap (cache : List (String × Nat)) (res : String) (f : Nat) :
    f ∈ (cache.filterMap fun p => if p.1 = res then some p.2 else none) ↔
      (res, f) ∈ cache := by
  rw [List.mem_filterMap]
  constructor
  · rintro ⟨⟨r, g⟩, hmem, hsome⟩
    by_cases h : r = res
    · subst h
      rw [if_pos rfl] at hsome
      cases hsome
      exact hmem
    · rw [if_neg h] at hsome
      cases hsome
  · intro hmem
    exact ⟨(res, f), hmem, by simp⟩

theorem mem_sortNatDesc (l : List Nat) (x : Nat) : x ∈ sortNatDesc l ↔ x ∈ l :=
  (List.perm_insertionSort _ l).mem_iff

theorem pairwise_gt_sortNatDesc (l : List Nat) (hnd : l.Nodup) :
    (sortNatDesc l).Pairwise fun a b => b < a := by
  have hsorted : (sortNatDesc l).Pairwise (· ≥ ·) :=
    List.sorted_insertionSort (· ≥ ·) l
  have hnd2 : (sortNatDesc l).Nodup :=
    ((List.perm_insertionSort _ l).nodup_iff).mpr hnd
  exact (hsorted.and hnd2).imp fun h => lt_of_le_of_ne h.1 (Ne.symm h.2)

/-- C6: with a mode list whose resolutions are exactly 1920x1080 and
1280x720 and no saved resolution, changing the pixel format builds the
resolution list by descending width, so 1920x1080 is listed first and is
selected as the default; changing the resolution to 1280x720 then
repopulates the frame-rate combo with exactly the distinct rates of the
pairs at that resolution, in descending order. -/
theorem cascading_selection (modesByFmt : List (String × List (String × Nat)))
    (fmt savedFps : String) (cache : List (String × Nat))
    (hc : lookupA modesByFmt fmt = some cache)
    (hall : ∀ r ∈ cache.map Prod.fst, r = "1920x1080" ∨ r = "1280x720")
    (h1 : "1920x1080" ∈ cache.map Prod.fst)
    (h2 : "1280x720" ∈ cache.map Prod.fst) :
    (onFormatChanged modesByFmt fmt "").1 = cache
    ∧ (onFormatChanged modesByFmt fmt "").2.items =
        [("1920x1080", "1920x1080"), ("1280x720", "1280x720")]
    ∧ comboValue (onFormatChanged modesByFmt fmt "").2 = "1920x1080"
    ∧ ∃ L : List Nat,
        (onResolutionChanged cache "1280x720" savedFps).items =
          L.map (fun f => (natToString f, natToString f ++ " fps"))
        ∧ (∀ f, f ∈ L ↔ ("1280x720", f) ∈ cache)
        ∧ L.Pairwise fun a b => b < a := by
  have hD2 : ∀ x, x ∈ dedupFirst (cache.map Prod.fst) ↔
      x = "1920x1080" ∨ x = "1280x720" := by
    intro x
    rw [mem_dedupFirst]
    constructor
    · exact hall x
    · rintro (rfl | rfl)
      · exact h1
      · exact h2
  have hcases := nodup_pair (dedupFirst (cache.map Prod.fst)) "1920x1080"
    "1280x720" (by decide) (nodup_dedupFirst _) hD2
  have hres : sortResDesc (dedupFirst (cache.map Prod.fst)) =
      ["1920x1080", "1280x720"] := by
    rcases hcases with hcase | hcase <;> rw [hcase] <;> decide
  have hof : onFormatChanged modesByFmt fmt "" =
      (cache,
        populateCombo [("1920x1080", "1920x1080"), ("1280x720", "1280x720")] "") := by
    simp only [onFormatChanged, hc, Option.getD_some, hres]
    rfl
  refine ⟨by rw [hof], ?_, ?_, ?_⟩
  · rw [hof]
    show (populateCombo [("1920x1080", "1920x1080"), ("1280x720", "1280x720")]
        "").items = [("1920x1080", "1920x1080"), ("1280x720", "1280x720")]
    decide
  · rw [hof]
    show comboValue (populateCombo
        [("1920x1080", "1920x1080"), ("1280x720", "1280x720")] "") = "1920x1080"
    decide
  refine ⟨sortNatDesc (dedupFirst
    (cache.filterMap fun p => if p.1 = "1280x720" then some p.2 else none)),
    ?_, ?_, ?_⟩
  · simp only [onResolutionChanged, populateCombo, List.map_map]
    rfl
  · intro f
    rw [mem_sortNatDesc, mem_dedupFirst, mem_fps_filterMap]
  · exact pairwise_gt_sortNatDesc _ (nodup_dedupFirst _)

theorem cascading_selection_witness :
    (lookupA [("NV12", [("1920x1080", 60), ("1280x720", 30), ("1280x720", 60)])]
        "NV12" = some [("1920x1080", 60), ("1280x720", 30), ("1280x720", 60)]
      ∧ (∀ r ∈ ([("1920x1080", 60), ("1280x720", 30),
            ("1280x720", 60)].map Prod.fst),
          r = "1920x1080" ∨ r = "1280x720")
      ∧ "1920x1080" ∈ ([("1920x1080", 60), ("1280x720", 30),
          ("1280x720", 60)].map Prod.fst)
      ∧ "1280x720" ∈ ([("1920x1080", 60), ("1280x720", 30),
          ("1280x720", 60)].map Prod.fst))
    ∧ ((onFormatChanged
          [("NV12", [("1920x1080", 60), ("1280x720", 30), ("1280x720", 60)])]
          "NV12" "").1 = [("1920x1080", 60), ("1280x720", 30), ("1280x720", 60)]
      ∧ (onFormatChanged
          [("NV12", [("1920x1080", 60), ("1280x720", 30), ("1280x720", 60)])]
          "NV12" "").2.items =
          [("1920x1080", "1920x1080"), ("1280x720", "1280x720")]
      ∧ comboValue (onFormatChanged
          [("NV12", [("1920x1080", 60), ("1280x720", 30), ("1280x720", 60)])]
          "NV12" "").2 = "1920x1080"
      ∧ ∃ L : List Nat,
          (onResolutionChanged [("1920x1080", 60), ("1280x720", 30),
            ("1280x720", 60)] "1280x720" "").items =
            L.map (fun f => (natToString f, natToString f ++ " fps"))
          ∧ (∀ f, f ∈ L ↔
              ("1280x720", f) ∈ [("1920x1080", 60), ("1280x720", 30),
                ("1280x720", 60)])
          ∧ L.Pairwise fun a b => b < a) :=
  ⟨⟨by decide, by decide, by decide, by decide⟩,
    cascading_selection
      [("NV12", [("1920x1080", 60), ("1280x720", 30), ("1280x720", 60)])]
      "NV12" "" [("1920x1080", 60), ("1280x720", 30), ("1280x720", 60)]
      (by decide) (by decide) (by decide) (by decide)⟩

/-! ## Launch sizing -/

unseal Rat.add Rat.sub Rat.mul Rat.inv in
/-- C8: with detected display scale 1.25 (the rational 5/4) and target
resolution 1920x1080, the window-rule size computed at launch is 1536 by
864: each dimension is divided by the scale and rounded (Python's round
half to even, exact here). -/
theorem display_scale_sizing :
    launchWinSize "1920x1080" (5 / 4 : ℚ) = ("1536", "864") := by decide

end CaptureStream
